import Mathlib

/-!
Verification of the proof-of-work ledger in `src/blockchain.js`.

The embedding below translates the `Block` and `Blockchain` classes into
Lean definitions:

* JavaScript number values carried by transactions are modelled by `JSNum`:
  an exact integer (`num`), `NaN`, `Infinity` or `-Infinity`.  Fractional
  values and double rounding are not modelled: binary64 addition and
  subtraction of integer values are exact only while operands and results
  stay below `2 ^ 53` in magnitude, so the one theorem whose truth depends
  on arithmetic exactness (`balance_conservation`) carries an explicit
  bound confining every computed value to that range; the special values
  follow IEEE propagation rules (`jsAdd`, `jsSub`).
* `JSON.stringify` on a transaction list is modelled by `jsonStringify`,
  rendering the fields in insertion order (`from`, `to`, `amount`), escaping
  quotes and backslashes in strings (control-character escapes are not
  modelled) and rendering non-finite numbers as `null`, as JSON.stringify
  does.
* The SHA-256 helper is an external collaborator, so the functions that use
  it take an abstract `Hasher : String → String` argument.
* `localStorage` is modelled as an `Option SavedState` value threaded
  explicitly: `saveState` is what `save()` writes, `loadState` is what
  `load()` restores from it, with JSON round-tripping of the records
  assumed faithful (the store "succeeding").
* `Date.now()` is passed in as an explicit `now : Nat` argument.
* The unbounded mining loop is given explicit fuel and returns `none` when
  the fuel runs out; `minePendingTransactions` likewise returns `none` when
  the chain is empty (where the JavaScript would fail reading
  `latestBlock().hash` of `undefined`).
-/

/-- A JavaScript number as it matters to this program: an exact integer,
`NaN`, `Infinity` or `-Infinity`. -/
inductive JSNum where
  | num (v : Int)
  | nan
  | inf
  | neginf
deriving DecidableEq

/-- The global `isNaN` applied to a number value. -/
def JSNum.isNaN : JSNum → Bool
  | .nan => true
  | _ => false

/-- Finiteness of a JavaScript number (`Number.isFinite`). -/
def JSNum.isFinite : JSNum → Bool
  | .num _ => true
  | _ => false

/-- JavaScript `+` on numbers, restricted to the modelled values:
`NaN`-absorbing, `Infinity + -Infinity = NaN`, and exact on integers.
Binary64 `+` is genuinely exact only when both operands and the result
are integers of magnitude at most `2 ^ 53`; this model is faithful in
that range and does not capture the rounding that occurs outside it. -/
def jsAdd : JSNum → JSNum → JSNum
  | .nan, _ => .nan
  | _, .nan => .nan
  | .inf, .neginf => .nan
  | .neginf, .inf => .nan
  | .inf, _ => .inf
  | _, .inf => .inf
  | .neginf, _ => .neginf
  | _, .neginf => .neginf
  | .num a, .num b => .num (a + b)

/-- JavaScript unary minus on numbers. -/
def jsNeg : JSNum → JSNum
  | .nan => .nan
  | .inf => .neginf
  | .neginf => .inf
  | .num a => .num (-a)

/-- JavaScript `-` on numbers: `a - b = a + (-b)` exactly in binary64, so
this inherits both `jsAdd`'s special-value behaviour and its exactness
domain (integers of magnitude at most `2 ^ 53`). -/
def jsSub (a b : JSNum) : JSNum := jsAdd a (jsNeg b)

/-- A transaction record `{from, to, amount}` (blockchain.js line 27 and
callers of `createTransaction`). -/
structure Transaction where
  «from» : String
  «to» : String
  amount : JSNum
deriving DecidableEq

/-- A block: `constructor(timestamp, transactions, previousHash)` plus the
`nonce` and `hash` fields it initialises (blockchain.js lines 2-9). -/
structure Block where
  timestamp : Nat
  transactions : List Transaction
  previousHash : String
  nonce : Nat
  hash : String
deriving DecidableEq

/-- `new Block(timestamp, transactions, previousHash)`: `nonce` starts at 0
and `hash` starts empty. -/
def Block.make (timestamp : Nat) (transactions : List Transaction)
    (previousHash : String) : Block :=
  { timestamp := timestamp, transactions := transactions,
    previousHash := previousHash, nonce := 0, hash := "" }

/-- The decimal digit character for `d < 10`. -/
def digitChar (d : Nat) : Char := Char.ofNat (48 + d)

/-- Decimal rendering of a natural number (most significant digit first),
prepended to `acc`: models JavaScript number-to-string for non-negative
integers. -/
def natChars (n : Nat) (acc : List Char) : List Char :=
  if n < 10 then digitChar n :: acc
  else natChars (n / 10) (digitChar (n % 10) :: acc)
termination_by n
decreasing_by exact Nat.div_lt_self (by omega) (by omega)

/-- Decimal string of a natural number, as a template literal renders it. -/
def natStr (n : Nat) : String := String.mk (natChars n [])

/-- Decimal rendering of an integer (JSON number rendering of an exact
integer value). -/
def intChars (a : Int) : List Char :=
  if a < 0 then '-' :: natChars a.natAbs [] else natChars a.toNat []

/-- JSON.stringify's escaping of one string character: quote and backslash
are escaped (control-character escapes are not modelled). -/
def escChar (c : Char) : List Char :=
  if c = '\"' then ['\\', '\"'] else if c = '\\' then ['\\', '\\'] else [c]

/-- JSON.stringify's escaping of a string body. -/
def escChars : List Char → List Char
  | [] => []
  | c :: cs => escChar c ++ escChars cs

/-- JSON rendering of a number value: non-finite numbers render as `null`
(as `JSON.stringify(Infinity)` and `JSON.stringify(NaN)` do). -/
def jsonNumChars : JSNum → List Char
  | .num v => intChars v
  | _ => ['n', 'u', 'l', 'l']

/-- The literal `{"from":"` opening a transaction object. -/
def objOpen : List Char := ['{', '\"', 'f', 'r', 'o', 'm', '\"', ':', '\"']

/-- The literal `","to":"` between the `from` and `to` values. -/
def objMid : List Char := ['\"', ',', '\"', 't', 'o', '\"', ':', '\"']

/-- The literal `","amount":` between the `to` value and the amount. -/
def objAmt : List Char := ['\"', ',', '\"', 'a', 'm', 'o', 'u', 'n', 't', '\"', ':']

/-- JSON.stringify of one transaction object, keys in insertion order. -/
def objChars (t : Transaction) : List Char :=
  objOpen ++ escChars t.«from».data ++ objMid ++ escChars t.«to».data
    ++ objAmt ++ jsonNumChars t.amount ++ ['}']

/-- JSON.stringify of a transaction array, after the opening bracket. -/
def bodyChars : List Transaction → List Char
  | [] => [']']
  | [t] => objChars t ++ [']']
  | t :: rest => objChars t ++ ',' :: bodyChars rest

/-- `JSON.stringify(transactions)` for a transaction array. -/
def jsonStringify (ts : List Transaction) : String :=
  String.mk ('[' :: bodyChars ts)

/-- `toHashString()` (blockchain.js lines 11-13): the fingerprint
`previousHash|timestamp|JSON.stringify(transactions)|nonce`. -/
def toHashString (b : Block) : String :=
  b.previousHash ++ "|" ++ natStr b.timestamp ++ "|"
    ++ jsonStringify b.transactions ++ "|" ++ natStr b.nonce

/-- `'0'.repeat(n)`: the proof-of-work target string. -/
def zeros (n : Nat) : String := String.mk (List.replicate n '0')

/-- JavaScript `String.prototype.startsWith`. -/
def strStartsWith (s pre : String) : Bool := List.isPrefixOf pre.data s.data

/-- The ledger: `chain`, `pendingTransactions`, `difficulty`, `miningReward`
(blockchain.js lines 17-24). -/
structure Blockchain where
  chain : List Block
  pendingTransactions : List Transaction
  difficulty : Nat
  miningReward : Int
deriving DecidableEq

/-- `latestBlock()` (line 33): `chain[chain.length - 1]`, which is only a
block when the chain is non-empty. -/
def latestBlock (bc : Blockchain) : Option Block := bc.chain.getLast?

/-- The candidate block built at the start of `minePendingTransactions`
(line 36): `new Block(Date.now(), pendingTransactions.slice(), latestBlock().hash)`. -/
def candidateBlock (now : Nat) (bc : Blockchain) (tip : Block) : Block :=
  Block.make now bc.pendingTransactions tip.hash

/-- The mining loop (lines 40-47) with explicit fuel: hash the fingerprint,
stop when it starts with the target, otherwise increment the nonce. -/
def mineLoop (H : String → String) (target : String) (b : Block) : Nat → Option Block
  | 0 => none
  | fuel + 1 =>
    if strStartsWith (H (toHashString b)) target then
      some { b with hash := H (toHashString b) }
    else mineLoop H target { b with nonce := b.nonce + 1 } fuel

/-- `minePendingTransactions(minerAddress)` (lines 35-53): build the
candidate from the chain tip, run the proof-of-work search, append the
sealed block and replace the pending queue by the single reward
transaction. -/
def minePendingTransactions (H : String → String) (now : Nat) (bc : Blockchain)
    (minerAddress : String) (fuel : Nat) : Option (Blockchain × Block) :=
  match latestBlock bc with
  | none => none
  | some tip =>
    match mineLoop H (zeros bc.difficulty) (candidateBlock now bc tip) fuel with
    | none => none
    | some blk =>
      some ({ bc with
                chain := bc.chain ++ [blk]
                pendingTransactions :=
                  [⟨"network", minerAddress, JSNum.num bc.miningReward⟩] }, blk)

/-- `createTransaction(tx)` (lines 55-59): reject when `from` or `to` is
falsy (the empty string) or the amount is `NaN` (`typeof tx.amount !==
'number'` cannot hold for a number value); otherwise push onto the pending
queue. `none` models the thrown `Error('Invalid transaction')`. -/
def createTransaction (bc : Blockchain) (tx : Transaction) : Option Blockchain :=
  if tx.«from» = "" || tx.«to» = "" || tx.amount.isNaN then none
  else some { bc with pendingTransactions := bc.pendingTransactions ++ [tx] }

/-- One loop body of `getBalanceOfAddress` (lines 65-66 and 70-71): subtract
when `from` matches, then add when `to` matches. -/
def txBalanceStep (address : String) (balance : JSNum) (t : Transaction) : JSNum :=
  let b1 := if t.«from» = address then jsSub balance t.amount else balance
  if t.«to» = address then jsAdd b1 t.amount else b1

/-- `getBalanceOfAddress(address)` (lines 61-74): fold over every chain
block's transactions, then over the pending queue. -/
def getBalanceOfAddress (bc : Blockchain) (address : String) : JSNum :=
  let b1 := bc.chain.foldl
    (fun bal blk => blk.transactions.foldl (txBalanceStep address) bal)
    (JSNum.num 0)
  bc.pendingTransactions.foldl (txBalanceStep address) b1

/-- The body of `isChainValid`'s loop (lines 77-84) runs with `previous` the
block before `current`; it returns `false` as soon as one check fails. -/
def validFrom (H : String → String) (target : String) :
    Block → List Block → Bool
  | _, [] => true
  | previous, current :: rest =>
    if current.hash == H (toHashString current)
        && current.previousHash == previous.hash
        && strStartsWith current.hash target
    then validFrom H target current rest
    else false

/-- `isChainValid()` (lines 76-86): check every block from index 1 against
its predecessor and the current difficulty's target. -/
def isChainValid (H : String → String) (bc : Blockchain) : Bool :=
  match bc.chain with
  | [] => true
  | g :: rest => validFrom H (zeros bc.difficulty) g rest

/-- The record `save()` writes (line 90): `{chain, pending}`. -/
structure SavedState where
  chain : List Block
  pending : List Transaction
deriving DecidableEq

/-- `save()` (lines 88-92): serialize the chain and the pending queue. -/
def saveState (bc : Blockchain) : SavedState :=
  ⟨bc.chain, bc.pendingTransactions⟩

/-- The block reconstruction in `load()` (line 99):
`Object.assign(new Block(b.timestamp, b.transactions, b.previousHash),
{nonce: b.nonce, hash: b.hash})` — the stored nonce and hash are restored
verbatim, not recomputed. -/
def loadBlock (b : Block) : Block :=
  { Block.make b.timestamp b.transactions b.previousHash with
    nonce := b.nonce, hash := b.hash }

/-- `load()` (lines 94-102) with the store succeeding: an absent record
leaves the ledger unchanged, a present one replaces chain and pending
queue. -/
def loadState (bc : Blockchain) (store : Option SavedState) : Blockchain :=
  match store with
  | none => bc
  | some s => { bc with
                  chain := s.chain.map loadBlock
                  pendingTransactions := s.pending }

/-- `createGenesisBlock()` (lines 26-31): push the sentinel block with
`previousHash = '0'` and `hash = '0'`, then save. -/
def createGenesisBlock (now : Nat) (bc : Blockchain) : Blockchain × Option SavedState :=
  let genesis : Block :=
    { Block.make now [⟨"genesis", "network", JSNum.num 0⟩] "0" with hash := "0" }
  let bc2 := { bc with chain := bc.chain ++ [genesis] }
  (bc2, some (saveState bc2))

/-- The `Blockchain` constructor (lines 17-24): fields default to `[]`, `[]`,
3 and 1, then `load()` runs against the store, and an empty chain triggers
genesis synthesis. -/
def Blockchain.init (store : Option SavedState) (now : Nat) :
    Blockchain × Option SavedState :=
  let bc0 : Blockchain :=
    { chain := [], pendingTransactions := [], difficulty := 3, miningReward := 1 }
  let bc1 := loadState bc0 store
  if bc1.chain.isEmpty then createGenesisBlock now bc1 else (bc1, store)

/-- `reset()` (lines 104-109): clear the store, empty the chain and the
pending queue, and synthesize a fresh genesis block. -/
def reset (bc : Blockchain) (now : Nat) : Blockchain × Option SavedState :=
  createGenesisBlock now { bc with chain := [], pendingTransactions := [] }

/-! ## Fixtures: a concrete hasher, ledger and mining run used by witnesses -/

/-- A degenerate hasher mapping every fingerprint to `"000"`: it meets the
difficulty-3 target at once, so concrete mining runs terminate. -/
def hasher000 : String → String := fun _ => "000"

/-- A concrete genesis block as `createGenesisBlock` builds it at time 0. -/
def genesisFix : Block :=
  { timestamp := 0, transactions := [⟨"genesis", "network", JSNum.num 0⟩],
    previousHash := "0", nonce := 0, hash := "0" }

/-- A concrete ledger: genesis plus one pending transaction. -/
def ledgerFix : Blockchain :=
  { chain := [genesisFix], pendingTransactions := [⟨"a", "b", JSNum.num 5⟩],
    difficulty := 3, miningReward := 1 }

/-- The block `minePendingTransactions hasher000 1 ledgerFix "m" 1` seals. -/
def minedBlockFix : Block :=
  { timestamp := 1, transactions := [⟨"a", "b", JSNum.num 5⟩],
    previousHash := "0", nonce := 0, hash := "000" }

/-- The ledger state after that concrete mining run. -/
def minedLedgerFix : Blockchain :=
  { chain := [genesisFix, minedBlockFix],
    pendingTransactions := [⟨"network", "m", JSNum.num 1⟩],
    difficulty := 3, miningReward := 1 }

/-- An empty-chain ledger with the constructor's default settings. -/
def bcEmpty : Blockchain :=
  { chain := [], pendingTransactions := [], difficulty := 3, miningReward := 1 }

/-- A transaction whose amount is `Infinity`: `parseFloat` can produce it and
the validator does not reject it. -/
def txInf : Transaction := ⟨"a", "b", JSNum.inf⟩

/-! ## C3: transaction submission -/

/-- C3 (counterexample): the claim says `submit` succeeds exactly when the
amount is a finite number, but `createTransaction` only rejects `NaN`
(`typeof Infinity === 'number'` and `isNaN(Infinity)` is `false`), so a
transaction with amount `Infinity` is accepted although it is not finite. -/
theorem createTransaction_accepts_infinite :
    (∃ bc', createTransaction bcEmpty txInf = some bc')
      ∧ txInf.amount.isFinite = false :=
  ⟨⟨_, rfl⟩, rfl⟩

/-- C3 (amended): `createTransaction bc tx` succeeds exactly when `tx.from`
and `tx.to` are non-empty and `tx.amount` is not `NaN` (infinite amounts are
accepted); on success it appends `tx` at the end of the pending queue,
leaving every other field unchanged, and on failure it signals the error
(returns `none`), the pure state being left untouched. -/
theorem createTransaction_spec (bc : Blockchain) (tx : Transaction) :
    (createTransaction bc tx
        = some { bc with pendingTransactions := bc.pendingTransactions ++ [tx] }
      ↔ (tx.«from» ≠ "" ∧ tx.«to» ≠ "" ∧ tx.amount.isNaN = false))
    ∧ (createTransaction bc tx = none
      ↔ (tx.«from» = "" ∨ tx.«to» = "" ∨ tx.amount.isNaN = true)) := by
  unfold createTransaction
  by_cases h1 : tx.«from» = "" <;> by_cases h2 : tx.«to» = "" <;>
    by_cases h3 : tx.amount.isNaN <;> simp [h1, h2, h3]

/-! ## C4: mining resets the pending queue to the single reward -/

/-- C4: immediately after a successful `minePendingTransactions addr`, the
pending queue holds exactly the one reward transaction
`{from: "network", to: addr, amount: miningReward}`; every previously
pending transaction is gone from the queue. -/
theorem mine_resets_pending_to_reward (H : String → String) (now : Nat)
    (bc : Blockchain) (addr : String) (fuel : Nat) (bc' : Blockchain) (blk : Block)
    (h : minePendingTransactions H now bc addr fuel = some (bc', blk)) :
    bc'.pendingTransactions = [⟨"network", addr, JSNum.num bc.miningReward⟩] := by
  rcases hl : latestBlock bc with _ | tip
  · simp only [minePendingTransactions, hl] at h
    exact absurd h (by simp)
  · simp only [minePendingTransactions, hl] at h
    rcases hm : mineLoop H (zeros bc.difficulty) (candidateBlock now bc tip) fuel
        with _ | blk2
    · rw [hm] at h; simp at h
    · rw [hm] at h
      simp only [Option.some.injEq, Prod.mk.injEq] at h
      rw [← h.1]

/-- C4 (witness): the concrete run `minePendingTransactions hasher000 1
ledgerFix "m" 1` leaves exactly the reward transaction pending. -/
theorem mine_resets_pending_to_reward_witness :
    minedLedgerFix.pendingTransactions = [⟨"network", "m", JSNum.num 1⟩] :=
  mine_resets_pending_to_reward hasher000 1 ledgerFix "m" 1 minedLedgerFix
    minedBlockFix (by decide)

/-! ## C6: save/load round trip -/

/-- C9: the persisted record holds only `{chain, pending}`, so a fresh
construction that loads a saved state always starts with `difficulty = 3`
and `miningReward = 1`, whatever those fields held when `save` ran. -/
theorem init_after_save_defaults (bc : Blockchain) (now : Nat) :
    ((Blockchain.init (some (saveState bc)) now).1.difficulty = 3)
      ∧ ((Blockchain.init (some (saveState bc)) now).1.miningReward = 1) := by
  unfold Blockchain.init
  dsimp only
  split <;> exact ⟨rfl, rfl⟩

/-! ## C10: reset -/

/-- The genesis block `createGenesisBlock` synthesizes at time `now`. -/
def genesisBlockOf (now : Nat) : Block :=
  { timestamp := now, transactions := [⟨"genesis", "network", JSNum.num 0⟩],
    previousHash := "0", nonce := 0, hash := "0" }

/-- C10: after `reset` the chain holds exactly the fresh genesis block —
`previousHash = "0"`, `hash = "0"`, `nonce = 0`, the single transaction
`{from: "genesis", to: "network", amount: 0}` — and the pending queue is
empty (no reward transaction). -/
theorem reset_spec (bc : Blockchain) (now : Nat) :
    (reset bc now).1.chain = [genesisBlockOf now]
      ∧ (reset bc now).1.pendingTransactions = [] :=
  ⟨rfl, rfl⟩

/-! ## C1 and C7: the proof-of-work search -/

/-- The proof-of-work acceptance test of the candidate block at nonce `m`. -/
def goodAt (H : String → String) (target : String) (cand : Block) (m : Nat) : Bool :=
  strStartsWith (H (toHashString { cand with nonce := m })) target

/-- The fingerprint ignores the `hash` field. -/
theorem toHashString_set_hash (b : Block) (s : String) :
    toHashString { b with hash := s } = toHashString b := rfl

/-- The block the mining loop seals when it accepts nonce `m`: the candidate
at nonce `m` carrying the hash of its own fingerprint. -/
def sealAt (H : String → String) (cand : Block) (m : Nat) : Block :=
  { { cand with nonce := m } with
    hash := H (toHashString { cand with nonce := m }) }

/-- If nonce `k + d` is the first acceptable nonce at or after `k`, the
mining loop started at nonce `k` with `d + 1` units of fuel seals the block
there. -/
theorem mineLoop_finds (H : String → String) (target : String) (cand : Block) :
    ∀ d k, goodAt H target cand (k + d) = true →
      (∀ m, k ≤ m → m < k + d → goodAt H target cand m = false) →
      mineLoop H target { cand with nonce := k } (d + 1) =
        some (sealAt H cand (k + d)) := by
  intro d
  induction d with
  | zero =>
    intro k hgood _
    unfold goodAt at hgood
    unfold mineLoop sealAt
    simp only [Nat.add_zero] at hgood ⊢
    simp [hgood]
  | succ d ih =>
    intro k hgood hbad
    have hk : goodAt H target cand k = false := hbad k (Nat.le_refl k) (by omega)
    unfold goodAt at hk
    unfold mineLoop
    rw [hk]
    simp only [Bool.false_eq_true, if_false]
    have hcast : ({ cand with nonce := k } : Block).nonce + 1 = k + 1 := rfl
    rw [hcast]
    have h1 : k + 1 + d = k + (d + 1) := by omega
    have := ih (k + 1) (by rw [h1]; exact hgood)
      (fun m hm1 hm2 => hbad m (by omega) (by omega))
    rw [h1] at this
    exact this

/-- Every block the mining loop returns carries the hash of its own
fingerprint, that hash meets the target, and the loop changed nothing but
the nonce and the hash. -/
theorem mineLoop_some_props (H : String → String) (target : String)
    (b blk : Block) (fuel : Nat) (h : mineLoop H target b fuel = some blk) :
    blk.hash = H (toHashString blk) ∧ strStartsWith blk.hash target = true
      ∧ blk.previousHash = b.previousHash ∧ blk.transactions = b.transactions
      ∧ blk.timestamp = b.timestamp := by
  induction fuel generalizing b with
  | zero => cases h
  | succ fuel ih =>
    unfold mineLoop at h
    rcases hc : strStartsWith (H (toHashString b)) target with _ | _ <;> rw [hc] at h
    · simp only [Bool.false_eq_true, if_false] at h
      exact ih { b with nonce := b.nonce + 1 } h
    · simp only [if_true, Option.some.injEq] at h
      subst h
      exact ⟨rfl, hc, rfl, rfl, rfl⟩

/-- Decomposition of a successful `minePendingTransactions` call: the chain
tip existed, the loop sealed the returned block, and the new state appends
it and resets the pending queue. -/
theorem mine_some_parts (H : String → String) (now : Nat) (bc : Blockchain)
    (addr : String) (fuel : Nat) (bc' : Blockchain) (blk : Block)
    (h : minePendingTransactions H now bc addr fuel = some (bc', blk)) :
    ∃ tip, latestBlock bc = some tip
      ∧ mineLoop H (zeros bc.difficulty) (candidateBlock now bc tip) fuel = some blk
      ∧ bc' = { bc with
                  chain := bc.chain ++ [blk]
                  pendingTransactions :=
                    [⟨"network", addr, JSNum.num bc.miningReward⟩] } := by
  rcases hl : latestBlock bc with _ | tip
  · simp only [minePendingTransactions, hl] at h
    exact absurd h (by simp)
  · simp only [minePendingTransactions, hl] at h
    rcases hm : mineLoop H (zeros bc.difficulty) (candidateBlock now bc tip) fuel
        with _ | blk2
    · rw [hm] at h; simp at h
    · rw [hm] at h
      simp only [Option.some.injEq, Prod.mk.injEq] at h
      obtain ⟨h1, h2⟩ := h
      subst h2
      exact ⟨tip, rfl, hm, h1.symm⟩

/-- C1: from a non-empty chain, whenever some nonce of the candidate block
meets the target, mining terminates (for enough fuel) appending exactly one
block whose `previousHash` is the tip's hash, whose transactions are the
pending queue as snapshotted at the call, whose hash starts with
`difficulty` ASCII `'0'` characters and equals the hasher applied to the
block's own fingerprint at its final nonce; the search started at nonce 0
and every smaller nonce had failed. -/
theorem mine_appends_sealed_block (H : String → String) (now : Nat)
    (bc : Blockchain) (addr : String) (tip : Block)
    (htip : latestBlock bc = some tip)
    (hex : ∃ n, goodAt H (zeros bc.difficulty) (candidateBlock now bc tip) n = true) :
    ∃ fuel bc' blk, minePendingTransactions H now bc addr fuel = some (bc', blk)
      ∧ bc'.chain = bc.chain ++ [blk]
      ∧ blk.previousHash = tip.hash
      ∧ blk.transactions = bc.pendingTransactions
      ∧ blk.timestamp = now
      ∧ strStartsWith blk.hash (zeros bc.difficulty) = true
      ∧ blk.hash = H (toHashString blk)
      ∧ (∀ m, m < blk.nonce →
          goodAt H (zeros bc.difficulty) (candidateBlock now bc tip) m = false) := by
  have hgood := Nat.find_spec hex
  have hbad : ∀ m, m < Nat.find hex →
      goodAt H (zeros bc.difficulty) (candidateBlock now bc tip) m = false := by
    intro m hm
    have h := Nat.find_min hex hm
    revert h
    cases goodAt H (zeros bc.difficulty) (candidateBlock now bc tip) m <;> simp
  have hml := mineLoop_finds H (zeros bc.difficulty) (candidateBlock now bc tip)
    (Nat.find hex) 0 (by rw [Nat.zero_add]; exact hgood)
    (fun m _ hm2 => hbad m (by omega))
  rw [Nat.zero_add] at hml
  have hcand : ({ candidateBlock now bc tip with nonce := 0 } : Block)
      = candidateBlock now bc tip := rfl
  rw [hcand] at hml
  have hmine : minePendingTransactions H now bc addr (Nat.find hex + 1)
      = some ({ bc with
                  chain := bc.chain ++
                    [sealAt H (candidateBlock now bc tip) (Nat.find hex)]
                  pendingTransactions :=
                    [⟨"network", addr, JSNum.num bc.miningReward⟩] },
              sealAt H (candidateBlock now bc tip) (Nat.find hex)) := by
    simp only [minePendingTransactions, htip, hml]
  exact ⟨Nat.find hex + 1, _, _, hmine, rfl, rfl, rfl, rfl, hgood, rfl,
    fun m hm => hbad m hm⟩

/-- C1 (witness): with the degenerate hasher and the concrete ledger the
search succeeds at nonce 0 and appends exactly one block. -/
theorem mine_appends_sealed_block_witness :
    ∃ fuel bc' blk,
      minePendingTransactions hasher000 1 ledgerFix "m" fuel = some (bc', blk)
        ∧ bc'.chain = ledgerFix.chain ++ [blk]
        ∧ strStartsWith blk.hash (zeros ledgerFix.difficulty) = true := by
  obtain ⟨fuel, bc', blk, h1, h2, -, -, -, h6, -⟩ :=
    mine_appends_sealed_block hasher000 1 ledgerFix "m" genesisFix (by decide)
      ⟨0, by decide⟩
  exact ⟨fuel, bc', blk, h1, h2, h6⟩

/-- Appending to a valid segment a block that hashes correctly, points at
the last block and meets the target keeps the segment valid. -/
theorem validFrom_append (H : String → String) (target : String) (prev : Block)
    (rest : List Block) (b last : Block)
    (hlast : (prev :: rest).getLast? = some last)
    (hv : validFrom H target prev rest = true)
    (hhash : b.hash = H (toHashString b))
    (hprev : b.previousHash = last.hash)
    (hsw : strStartsWith b.hash target = true) :
    validFrom H target prev (rest ++ [b]) = true := by
  induction rest generalizing prev with
  | nil =>
    have hp : b.previousHash = prev.hash := by
      simp only [List.getLast?_singleton, Option.some.injEq] at hlast
      rw [hprev, ← hlast]
    have hsw2 : strStartsWith (H (toHashString b)) target = true := by
      rw [← hhash]; exact hsw
    show validFrom H target prev [b] = true
    simp [validFrom, hhash, hp, hsw2]
  | cons cur rest ih =>
    have hlast2 : (cur :: rest).getLast? = some last := by
      rw [List.getLast?_cons_cons] at hlast
      exact hlast
    show validFrom H target prev (cur :: (rest ++ [b])) = true
    simp only [validFrom] at hv ⊢
    by_cases hcond : (cur.hash == H (toHashString cur)
        && cur.previousHash == prev.hash
        && strStartsWith cur.hash target) = true
    · rw [if_pos hcond] at hv
      rw [if_pos hcond]
      exact ih cur hlast2 hv
    · rw [if_neg hcond] at hv
      cases hv

/-- C7: on an untampered chain — one `isChainValid` currently accepts — a
successful `minePendingTransactions` call (with no intervening mutation of
chain or difficulty, which the pure state passing makes explicit) leaves
`isChainValid` accepting the new state. -/
theorem isChainValid_after_mine (H : String → String) (now : Nat)
    (bc : Blockchain) (addr : String) (fuel : Nat) (bc' : Blockchain) (blk : Block)
    (hvalid : isChainValid H bc = true)
    (hmine : minePendingTransactions H now bc addr fuel = some (bc', blk)) :
    isChainValid H bc' = true := by
  obtain ⟨tip, htip, hloop, hbc'⟩ := mine_some_parts H now bc addr fuel bc' blk hmine
  obtain ⟨hhash, hsw, hprev, -, -⟩ :=
    mineLoop_some_props H (zeros bc.difficulty) _ _ fuel hloop
  subst hbc'
  unfold latestBlock at htip
  rcases hchain : bc.chain with _ | ⟨g, rest⟩
  · rw [hchain] at htip; cases htip
  · rw [hchain] at htip
    have hv : validFrom H (zeros bc.difficulty) g rest = true := by
      simp only [isChainValid, hchain] at hvalid
      exact hvalid
    simp only [isChainValid, List.cons_append]
    exact validFrom_append H (zeros bc.difficulty) g rest blk tip htip hv hhash hprev hsw

/-- C7 (witness): mining on the concrete valid one-block ledger with the
degenerate hasher keeps the chain valid. -/
theorem isChainValid_after_mine_witness : isChainValid hasher000 minedLedgerFix = true :=
  isChainValid_after_mine hasher000 1 ledgerFix "m" 1 minedLedgerFix minedBlockFix
    (by decide) (by decide)

/-! ## C2: characterisation of `isChainValid` -/

/-- `validFrom prev rest` accepts exactly when every block of `rest` hashes
to its own fingerprint, points at its predecessor in `prev :: rest`, and
meets the target. -/
theorem validFrom_iff (H : String → String) (target : String) (prev : Block)
    (rest : List Block) :
    validFrom H target prev rest = true ↔
      ∀ j (hj : j < rest.length),
        (rest.get ⟨j, hj⟩).hash = H (toHashString (rest.get ⟨j, hj⟩))
          ∧ (rest.get ⟨j, hj⟩).previousHash
              = ((prev :: rest).get ⟨j, by simp only [List.length_cons]; omega⟩).hash
          ∧ strStartsWith (rest.get ⟨j, hj⟩).hash target = true := by
  induction rest generalizing prev with
  | nil => simp [validFrom]
  | cons cur rest ih =>
    simp only [validFrom]
    by_cases hcond : (cur.hash == H (toHashString cur)
        && cur.previousHash == prev.hash
        && strStartsWith cur.hash target) = true
    · rw [if_pos hcond]
      rw [ih cur]
      simp only [Bool.and_eq_true, beq_iff_eq] at hcond
      obtain ⟨⟨hc1, hc2⟩, hc3⟩ := hcond
      constructor
      · intro hall j hj
        cases j with
        | zero => exact ⟨hc1, hc2, hc3⟩
        | succ j =>
          have hj' : j < rest.length := by simpa using hj
          have h := hall j hj'
          simp only [List.get_cons_succ]
          exact h
      · intro hall j hj
        have h := hall (j + 1) (by simpa using hj)
        simp only [List.get_cons_succ] at h
        exact h
    · rw [if_neg hcond]
      constructor
      · intro h; cases h
      · intro hall
        exfalso
        have h0 := hall 0 (by simp)
        apply hcond
        simp only [Bool.and_eq_true, beq_iff_eq]
        exact ⟨⟨h0.1, h0.2.1⟩, h0.2.2⟩

/-- C2: `isChainValid` accepts exactly when every block at index `1 ≤ i <
chain.length` hashes to its own fingerprint, links to `chain[i-1].hash`,
and starts with the ledger's current difficulty's worth of `'0'` digits;
the genesis block at index 0 is never re-verified (and, the embedding being
pure state passing, the check mutates nothing). -/
theorem isChainValid_iff (H : String → String) (bc : Blockchain) :
    isChainValid H bc = true ↔
      ∀ i (hi : i < bc.chain.length), 1 ≤ i →
        (bc.chain.get ⟨i, hi⟩).hash = H (toHashString (bc.chain.get ⟨i, hi⟩))
          ∧ (bc.chain.get ⟨i, hi⟩).previousHash
              = (bc.chain.get ⟨i - 1, by omega⟩).hash
          ∧ strStartsWith (bc.chain.get ⟨i, hi⟩).hash (zeros bc.difficulty) = true := by
  rcases hchain : bc.chain with _ | ⟨g, rest⟩
  · simp only [isChainValid, hchain]
    constructor
    · intro _ i hi
      simp at hi
    · intro _; trivial
  · simp only [isChainValid, hchain]
    rw [validFrom_iff]
    constructor
    · intro hall i hi h1
      obtain ⟨j, rfl⟩ : ∃ j, i = j + 1 := ⟨i - 1, by omega⟩
      have hj : j < rest.length := by simpa using hi
      have h := hall j hj
      simp only [List.get_cons_succ, Nat.add_sub_cancel]
      exact h
    · intro hall j hj
      have h := hall (j + 1) (by simpa using hj) (by omega)
      simp only [List.get_cons_succ, Nat.add_sub_cancel] at h
      exact h

/-! ## C5: aggregate balance conservation -/

/-- The integer carried by a finite number (0 for the special values). -/
def JSNum.val : JSNum → Int
  | .num v => v
  | _ => 0

/-- Every transaction the ledger knows: each chain block's list in chain
order, then the pending queue. -/
def allTransactions (bc : Blockchain) : List Transaction :=
  (bc.chain.map Block.transactions).flatten ++ bc.pendingTransactions

/-- Every address appearing in a `from` or `to` field of any of those
transactions, first occurrences kept. -/
def addressesOf (bc : Blockchain) : List String :=
  (((allTransactions bc).map (fun t => [t.«from», t.«to»])).flatten).dedup

/-- The claim's aggregate: `balanceOf` summed (by JavaScript addition) over
every address that appears anywhere in the ledger. -/
def sumBalances (bc : Blockchain) : JSNum :=
  ((addressesOf bc).map (getBalanceOfAddress bc)).foldl jsAdd (JSNum.num 0)

/-- The exact net effect of one transaction on one address. -/
def txDelta (a : String) (t : Transaction) : Int :=
  (if t.«to» = a then t.amount.val else 0) - (if t.«from» = a then t.amount.val else 0)

/-- `getBalanceOfAddress` is the single fold of `txBalanceStep` over
`allTransactions`. -/
theorem getBalance_foldl (bc : Blockchain) (a : String) :
    getBalanceOfAddress bc a
      = (allTransactions bc).foldl (txBalanceStep a) (JSNum.num 0) := by
  unfold getBalanceOfAddress allTransactions
  rw [List.foldl_append, List.foldl_flatten, List.foldl_map]

/-- On finite amounts the balance fold is exact integer accumulation of the
per-transaction deltas. -/
theorem foldl_step_finite (a : String) (ts : List Transaction)
    (hfin : ∀ t ∈ ts, t.amount.isFinite = true) (b0 : Int) :
    ts.foldl (txBalanceStep a) (JSNum.num b0)
      = JSNum.num (b0 + (ts.map (txDelta a)).sum) := by
  induction ts generalizing b0 with
  | nil => simp
  | cons t ts ih =>
    have hft : t.amount.isFinite = true := hfin t (by simp)
    obtain ⟨v, hv⟩ : ∃ v, t.amount = JSNum.num v := by
      cases h : t.amount with
      | num v => exact ⟨v, rfl⟩
      | nan => rw [h] at hft; cases hft
      | inf => rw [h] at hft; cases hft
      | neginf => rw [h] at hft; cases hft
    have hstep : txBalanceStep a (JSNum.num b0) t = JSNum.num (b0 + txDelta a t) := by
      unfold txBalanceStep txDelta
      rw [hv]
      by_cases h1 : t.«from» = a <;> by_cases h2 : t.«to» = a <;>
        simp [h1, h2, jsSub, jsAdd, jsNeg, JSNum.val]
    rw [List.foldl_cons, hstep, ih (fun u hu => hfin u (by simp [hu]))]
    simp only [List.map_cons, List.sum_cons]
    exact congrArg JSNum.num (by ring)

/-- Folding JavaScript addition over exact integers is exact summation. -/
theorem foldl_jsAdd_nums (l : List Int) (b0 : Int) :
    (l.map JSNum.num).foldl jsAdd (JSNum.num b0) = JSNum.num (b0 + l.sum) := by
  induction l generalizing b0 with
  | nil => simp
  | cons v l ih =>
    simp only [List.map_cons, List.foldl_cons, List.sum_cons]
    rw [show jsAdd (JSNum.num b0) (JSNum.num v) = JSNum.num (b0 + v) from rfl, ih]
    exact congrArg JSNum.num (by ring)

/-- Summing a pointwise sum of two integer functions splits. -/
theorem sum_map_int_add {α : Type} (l : List α) (f g : α → Int) :
    (l.map (fun x => f x + g x)).sum = (l.map f).sum + (l.map g).sum := by
  induction l with
  | nil => simp
  | cons x l ih => simp only [List.map_cons, List.sum_cons, ih]; ring

/-- Double-sum exchange for the per-address, per-transaction deltas. -/
theorem sum_delta_swap (addrs : List String) (ts : List Transaction) :
    (addrs.map (fun a => (ts.map (txDelta a)).sum)).sum
      = (ts.map (fun t => (addrs.map (fun a => txDelta a t)).sum)).sum := by
  induction ts with
  | nil => simp
  | cons t ts ih =>
    simp only [List.map_cons, List.sum_cons]
    rw [← ih, ← sum_map_int_add]

/-- Summing an indicator-weighted constant counts the occurrences. -/
theorem sum_if_count (addrs : List String) (x : String) (c : Int) :
    (addrs.map (fun a => if x = a then c else 0)).sum
      = ((addrs.count x : Nat) : Int) * c := by
  induction addrs with
  | nil => simp
  | cons b addrs ih =>
    simp only [List.map_cons, List.sum_cons, ih, List.count_cons]
    by_cases h : x = b
    · simp [h]; ring
    · have h2 : ¬ (b == x) = true := by simpa [beq_iff_eq] using fun hh => h hh.symm
      simp [h, h2]

/-- Summing a pointwise difference of two integer functions splits. -/
theorem sum_map_int_sub {α : Type} (l : List α) (f g : α → Int) :
    (l.map (fun x => f x - g x)).sum = (l.map f).sum - (l.map g).sum := by
  induction l with
  | nil => simp
  | cons x l ih => simp only [List.map_cons, List.sum_cons, ih]; ring

/-- Over a duplicate-free address list containing both endpoints, one
transaction's deltas cancel. -/
theorem delta_sum_zero (addrs : List String) (t : Transaction)
    (hnd : addrs.Nodup) (hf : t.«from» ∈ addrs) (ht : t.«to» ∈ addrs) :
    (addrs.map (fun a => txDelta a t)).sum = 0 := by
  unfold txDelta
  rw [sum_map_int_sub addrs (fun a => if t.«to» = a then t.amount.val else 0)
      (fun a => if t.«from» = a then t.amount.val else 0),
    sum_if_count, sum_if_count,
    List.count_eq_one_of_mem hnd ht, List.count_eq_one_of_mem hnd hf]
  ring

/-- Both endpoints of every known transaction are collected addresses. -/
theorem mem_addressesOf (bc : Blockchain) (t : Transaction)
    (h : t ∈ allTransactions bc) :
    t.«from» ∈ addressesOf bc ∧ t.«to» ∈ addressesOf bc := by
  unfold addressesOf
  constructor <;> rw [List.mem_dedup, List.mem_flatten] <;>
    exact ⟨[t.«from», t.«to»], List.mem_map_of_mem _ h, by simp⟩

/-- The total mass of the ledger: the sum of the absolute amounts of every
transaction it knows. -/
def totalAbs (bc : Blockchain) : Nat :=
  ((allTransactions bc).map (fun t => t.amount.val.natAbs)).sum

/-- One transaction moves one address's balance by at most twice its
absolute amount. -/
theorem txDelta_natAbs_le (a : String) (t : Transaction) :
    (txDelta a t).natAbs ≤ 2 * t.amount.val.natAbs := by
  unfold txDelta
  by_cases h1 : t.«to» = a <;> by_cases h2 : t.«from» = a <;>
    simp [h1, h2, Int.natAbs_neg, sub_self] <;> omega

/-- A sum of per-transaction deltas is bounded by the summed bounds. -/
theorem sum_txDelta_natAbs_le (a : String) (ts : List Transaction) :
    ((ts.map (txDelta a)).sum).natAbs
      ≤ 2 * (ts.map (fun t => t.amount.val.natAbs)).sum := by
  induction ts with
  | nil => simp
  | cons t ts ih =>
    simp only [List.map_cons, List.sum_cons]
    calc (txDelta a t + (ts.map (txDelta a)).sum).natAbs
        ≤ (txDelta a t).natAbs + ((ts.map (txDelta a)).sum).natAbs :=
          Int.natAbs_add_le _ _
      _ ≤ 2 * t.amount.val.natAbs
            + 2 * (ts.map (fun t => t.amount.val.natAbs)).sum :=
          Nat.add_le_add (txDelta_natAbs_le a t) ih
      _ = 2 * (t.amount.val.natAbs
            + (ts.map (fun t => t.amount.val.natAbs)).sum) := by ring

/-- Every balance the program computes on a finite-amount ledger is an
exact integer of magnitude at most `2 * totalAbs`.  When
`2 * totalAbs bc < 2 ^ 53`, every such value (and likewise every partial
sum either fold passes through, each being a partial signed sum of the
same amounts) lies in the range where binary64 addition and subtraction
of integers are exact, so the exact integer model agrees with the
program's double arithmetic there. -/
theorem getBalanceOfAddress_bounded (bc : Blockchain)
    (hfin : ∀ t ∈ allTransactions bc, t.amount.isFinite = true) (a : String) :
    ∃ v : Int, getBalanceOfAddress bc a = JSNum.num v
      ∧ v.natAbs ≤ 2 * totalAbs bc := by
  refine ⟨((allTransactions bc).map (txDelta a)).sum, ?_, ?_⟩
  · rw [getBalance_foldl, foldl_step_finite a _ hfin 0]
    exact congrArg JSNum.num (by ring)
  · exact sum_txDelta_natAbs_le a (allTransactions bc)

/-- C5 (amended): on every ledger state whose transaction amounts are all
finite integer values with `2 * totalAbs bc < 2 ^ 53`, summing `balanceOf`
over every address that appears in a `from` or `to` field anywhere in the
chain or the pending queue yields exactly zero.  The bound is the
faithfulness side condition: it keeps every integer either fold computes
within the range where binary64 arithmetic is exact (see
`getBalanceOfAddress_bounded`), which is where the exact `jsAdd`/`jsSub`
model coincides with the program's double arithmetic — the Lean proof
works in the exact model and does not otherwise consume the bound.
Outside this regime the program's aggregate can differ from zero:
non-finite amounts give `NaN`, fractional amounts round (0.1 + 0.2), and
amounts past `2 ^ 53` lose integer exactness. -/
theorem balance_conservation (bc : Blockchain)
    (hfin : ∀ t ∈ allTransactions bc, t.amount.isFinite = true)
    (_hrange : 2 * totalAbs bc < 2 ^ 53) :
    sumBalances bc = JSNum.num 0 := by
  unfold sumBalances
  have hmap : (addressesOf bc).map (getBalanceOfAddress bc)
      = ((addressesOf bc).map
          (fun a => ((allTransactions bc).map (txDelta a)).sum)).map JSNum.num := by
    rw [List.map_map]
    apply List.map_congr_left
    intro a _
    rw [getBalance_foldl, foldl_step_finite a _ hfin 0]
    exact congrArg JSNum.num (by ring)
  rw [hmap, foldl_jsAdd_nums, sum_delta_swap]
  have hzero : ∀ x ∈ (allTransactions bc).map
      (fun t => ((addressesOf bc).map (fun a => txDelta a t)).sum), x = 0 := by
    intro x hx
    obtain ⟨t, ht, rfl⟩ := List.mem_map.mp hx
    exact delta_sum_zero _ t (List.nodup_dedup _)
      (mem_addressesOf bc t ht).1 (mem_addressesOf bc t ht).2
  rw [List.sum_eq_zero hzero]
  simp

/-- A ledger holding one pending transaction of amount `Infinity`. -/
def bcInf : Blockchain :=
  { chain := [], pendingTransactions := [txInf], difficulty := 3, miningReward := 1 }

/-- C5 (counterexample): with a pending transaction of amount `Infinity`
the aggregate is `NaN` (`-Infinity + Infinity`), not zero, so the claim
fails on ledger states with non-finite amounts. -/
theorem sumBalances_not_zero_with_infinite : sumBalances bcInf ≠ JSNum.num 0 := by
  decide

/-- C5 (witness): the concrete ledger's amounts are finite integers well
inside the exact range, and its balances sum to zero. -/
theorem balance_conservation_witness : sumBalances ledgerFix = JSNum.num 0 :=
  balance_conservation ledgerFix (by decide) (by decide)

/-! ## C8: the fingerprint determines the hashed fields

The strategy: a decoder `decodeFingerRev` runs over the reversed character
list of a fingerprint and recovers nonce, transactions, timestamp and
previousHash; `decode_toHashString` proves it exact on every block whose
amounts are finite, which makes the fingerprint injective there. -/

/-- Unfolding equation of `natChars`. -/
theorem natChars_eq (n : Nat) (acc : List Char) :
    natChars n acc = if n < 10 then digitChar n :: acc
      else natChars (n / 10) (digitChar (n % 10) :: acc) := by
  rw [natChars]

/-- The code point of a decimal digit character. -/
theorem digitChar_toNat (d : Nat) (hd : d < 10) : (digitChar d).toNat = 48 + d := by
  interval_cases d <;> decide

/-- Decimal digit characters satisfy `Char.isDigit`. -/
theorem digitChar_isDigit (d : Nat) (hd : d < 10) : (digitChar d).isDigit = true := by
  interval_cases d <;> decide

/-- Every character `natChars` emits (onto a digit-only accumulator) is a
digit. -/
theorem natChars_digits (n : Nat) : ∀ acc, (∀ c ∈ acc, c.isDigit = true) →
    ∀ c ∈ natChars n acc, c.isDigit = true := by
  induction n using Nat.strong_induction_on with
  | _ n ih =>
    intro acc hacc c hc
    rw [natChars_eq] at hc
    by_cases h : n < 10
    · rw [if_pos h] at hc
      rcases List.mem_cons.mp hc with rfl | hc2
      · exact digitChar_isDigit n h
      · exact hacc c hc2
    · rw [if_neg h] at hc
      refine ih (n / 10) (Nat.div_lt_self (by omega) (by omega)) _ ?_ c hc
      intro c' hc'
      rcases List.mem_cons.mp hc' with rfl | hc2
      · exact digitChar_isDigit _ (Nat.mod_lt _ (by omega))
      · exact hacc _ hc2

/-- `natChars` never returns the empty list. -/
theorem natChars_ne_nil (n : Nat) : ∀ acc, natChars n acc ≠ [] := by
  induction n using Nat.strong_induction_on with
  | _ n ih =>
    intro acc
    rw [natChars_eq]
    by_cases h : n < 10
    · rw [if_pos h]; exact List.cons_ne_nil _ _
    · rw [if_neg h]; exact ih _ (Nat.div_lt_self (by omega) (by omega)) _

/-- Number of digits of the decimal rendering. -/
def numDigits (n : Nat) : Nat :=
  if n < 10 then 1 else numDigits (n / 10) + 1
termination_by n
decreasing_by exact Nat.div_lt_self (by omega) (by omega)

/-- Unfolding equation of `numDigits`. -/
theorem numDigits_eq (n : Nat) :
    numDigits n = if n < 10 then 1 else numDigits (n / 10) + 1 := by
  rw [numDigits]

/-- One step of reading a decimal numeral most-significant-digit first. -/
def natValStep (a : Nat) (c : Char) : Nat := 10 * a + (c.toNat - 48)

/-- The value of a decimal numeral. -/
def natVal (cs : List Char) : Nat := cs.foldl natValStep 0

/-- Folding the numeral reader over `natChars n acc` accumulates exactly
`n` before continuing into `acc`. -/
theorem foldl_natChars (n : Nat) : ∀ acc a,
    (natChars n acc).foldl natValStep a
      = acc.foldl natValStep (a * 10 ^ numDigits n + n) := by
  induction n using Nat.strong_induction_on with
  | _ n ih =>
    intro acc a
    rw [natChars_eq]
    by_cases h : n < 10
    · rw [if_pos h]
      simp only [List.foldl_cons]
      rw [numDigits_eq, if_pos h]
      congr 1
      unfold natValStep
      rw [digitChar_toNat n h]
      have h48 : 48 + n - 48 = n := by omega
      rw [h48, pow_one]
      ring
    · rw [if_neg h]
      rw [ih (n / 10) (Nat.div_lt_self (by omega) (by omega))]
      simp only [List.foldl_cons]
      congr 1
      unfold natValStep
      rw [digitChar_toNat _ (Nat.mod_lt _ (by omega))]
      rw [numDigits_eq n, if_neg h, pow_succ]
      have h48 : 48 + n % 10 - 48 = n % 10 := by omega
      rw [h48]
      have hn : 10 * (n / 10) + n % 10 = n := by omega
      have hexp : 10 * (a * 10 ^ numDigits (n / 10) + n / 10) + n % 10
          = a * (10 ^ numDigits (n / 10) * 10) + (10 * (n / 10) + n % 10) := by ring
      rw [hexp, hn]

/-- Reading back the decimal rendering gives the number: the rendering is
injective. -/
theorem natVal_natChars (n : Nat) : natVal (natChars n []) = n := by
  unfold natVal
  rw [foldl_natChars]
  simp

/-- Take-while over an all-digit run stops exactly at the first non-digit. -/
theorem takeWhile_digit_run (xs : List Char) (hxs : ∀ c ∈ xs, c.isDigit = true)
    (y : Char) (hy : y.isDigit = false) (r : List Char) :
    (xs ++ y :: r).takeWhile Char.isDigit = xs
      ∧ (xs ++ y :: r).dropWhile Char.isDigit = y :: r := by
  induction xs with
  | nil => simp [List.takeWhile_cons, List.dropWhile_cons, hy]
  | cons x xs ih =>
    have hx : x.isDigit = true := hxs x (by simp)
    have ih2 := ih (fun c hc => hxs c (by simp [hc]))
    simp only [List.cons_append, List.takeWhile_cons, List.dropWhile_cons, hx,
      if_true, ih2.1, ih2.2]
    exact ⟨trivial, trivial⟩

/-- Expect an exact literal prefix and return the rest of the input. -/
def expectL : List Char → List Char → Option (List Char)
  | [], cs => some cs
  | _ :: _, [] => none
  | e :: es, c :: cs => if c = e then expectL es cs else none

/-- `expectL` consumes exactly its literal. -/
theorem expectL_append (lit : List Char) (r : List Char) :
    expectL lit (lit ++ r) = some r := by
  induction lit with
  | nil => rfl
  | cons e es ih => simp [expectL, ih]

/-- Reverse scan of an escaped string region: reads the reversed escape
blocks of the value and consumes the value's opening quote, which in
reverse order is the first `'"'` not followed by a backslash. -/
def scanRev : List Char → Option (List Char × List Char)
  | [] => none
  | c :: r =>
    if c = '\"' then
      match r with
      | [] => some ([], [])
      | c2 :: r2 =>
        if c2 = '\\' then
          match scanRev r2 with
          | none => none
          | some (cs, rest) => some ('\"' :: cs, rest)
        else some ([], c2 :: r2)
    else if c = '\\' then
      match r with
      | [] => none
      | c2 :: r2 =>
        if c2 = '\\' then
          match scanRev r2 with
          | none => none
          | some (cs, rest) => some ('\\' :: cs, rest)
        else none
    else
      match scanRev r with
      | none => none
      | some (cs, rest) => some (c :: cs, rest)

/-- `escChars` is an append homomorphism. -/
theorem escChars_append (u v : List Char) :
    escChars (u ++ v) = escChars u ++ escChars v := by
  induction u with
  | nil => rfl
  | cons c u ih => simp [escChars, ih]

/-- `scanRev` undoes `escChars` exactly: running it on the reversed escaped
body, the opening quote, and any continuation not starting with a backslash
returns the reversed raw value and the continuation. -/
theorem scanRev_esc (v : List Char) (c : Char) (hc : ¬ c = '\\') (r : List Char) :
    scanRev ((escChars v).reverse ++ '\"' :: c :: r) = some (v.reverse, c :: r) := by
  induction v using List.reverseRecOn with
  | nil =>
    simp only [escChars, List.reverse_nil, List.nil_append]
    simp [scanRev, hc]
  | append_singleton v x ih =>
    rw [escChars_append]
    simp only [List.reverse_append, List.append_assoc]
    by_cases hx1 : x = '\"'
    · subst hx1
      have hesc : escChars ['\"'] = ['\\', '\"'] := rfl
      rw [hesc]
      simp only [List.reverse_cons, List.reverse_nil, List.nil_append,
        List.cons_append, List.append_assoc]
      simp only [scanRev, List.reverse_append, List.reverse_cons, List.reverse_nil]
      rw [ih]
      simp
    · by_cases hx2 : x = '\\'
      · subst hx2
        have hesc : escChars ['\\'] = ['\\', '\\'] := rfl
        rw [hesc]
        simp only [List.reverse_cons, List.reverse_nil, List.nil_append,
          List.cons_append]
        simp only [scanRev]
        rw [ih]
        simp
      · have hesc : escChars [x] = [x] := by simp [escChars, escChar, hx1, hx2]
        rw [hesc]
        simp only [List.reverse_cons, List.reverse_nil, List.nil_append,
          List.cons_append]
        rw [scanRev.eq_def]
        dsimp only
        rw [if_neg hx1, if_neg hx2, ih]

/-- `objAmt` reversed. -/
def amtRev : List Char := [':', '\"', 't', 'n', 'u', 'o', 'm', 'a', '\"', ',', '\"']

/-- `objMid` reversed, after its leading quote. -/
def midTailRev : List Char := [':', '\"', 'o', 't', '\"', ',', '\"']

/-- `objOpen` reversed, after its leading quote. -/
def openTailRev : List Char := [':', '\"', 'm', 'o', 'r', 'f', '\"', '{']

/-- Parse one reversed transaction object: closing brace, amount digits
(with optional sign), the reversed literals between the fields, and the two
escaped string values. -/
def jObjRev (cs : List Char) : Option (Transaction × List Char) :=
  match expectL ['}'] cs with
  | none => none
  | some r1 =>
    let ds := r1.takeWhile Char.isDigit
    let r2 := r1.dropWhile Char.isDigit
    if ds = [] then none
    else
      let amt : Int := (natVal ds.reverse : Nat)
      let signed : Int × List Char :=
        match r2 with
        | c2 :: r3 => if c2 = '-' then (-amt, r3) else (amt, r2)
        | [] => (amt, [])
      match expectL amtRev signed.2 with
      | none => none
      | some r4 =>
        match scanRev r4 with
        | none => none
        | some (toR, r5) =>
          match expectL midTailRev r5 with
          | none => none
          | some r6 =>
            match scanRev r6 with
            | none => none
            | some (fromR, r7) =>
              match expectL openTailRev r7 with
              | none => none
              | some r8 =>
                some (⟨String.mk fromR.reverse, String.mk toR.reverse,
                       JSNum.num signed.1⟩, r8)

/-- The reversed digits of a rendering are digits, and nonempty. -/
theorem natChars_reverse_digits (n : Nat) :
    (∀ c ∈ (natChars n []).reverse, c.isDigit = true)
      ∧ (natChars n []).reverse ≠ [] := by
  constructor
  · intro c hc
    exact natChars_digits n [] (by simp) c (List.mem_reverse.mp hc)
  · intro h
    exact natChars_ne_nil n [] (by simpa using congrArg List.reverse h)

/-- `jObjRev` undoes `objChars` exactly on a finite-amount transaction,
for any continuation. -/
theorem jObjRev_spec (t : Transaction) (v : Int) (hv : t.amount = JSNum.num v)
    (r : List Char) :
    jObjRev ((objChars t).reverse ++ r) = some (t, r) := by
  have hAmtRev : objAmt.reverse = amtRev := rfl
  have hMidRev : objMid.reverse = '\"' :: midTailRev := rfl
  have hOpenRev : objOpen.reverse = '\"' :: openTailRev := rfl
  have hobj : (objChars t).reverse ++ r
      = '}' :: ((jsonNumChars t.amount).reverse
          ++ (amtRev ++ ((escChars t.«to».data).reverse
          ++ ('\"' :: (midTailRev ++ ((escChars t.«from».data).reverse
          ++ ('\"' :: (openTailRev ++ r)))))))) := by
    simp only [objChars, List.reverse_append, List.append_assoc, hAmtRev,
      hMidRev, hOpenRev, List.cons_append, List.reverse_cons, List.reverse_nil,
      List.nil_append]
  rw [hobj]
  rcases le_or_lt 0 v with hv0 | hv0
  · -- non-negative amount: rendering is the bare digit string
    have hA : jsonNumChars t.amount = natChars v.toNat [] := by
      rw [hv]
      show intChars v = natChars v.toNat []
      unfold intChars
      rw [if_neg (by omega)]
    rw [hA]
    have hdig := (natChars_reverse_digits v.toNat).1
    have hne := (natChars_reverse_digits v.toNat).2
    have hreshape : amtRev ++ ((escChars t.«to».data).reverse
          ++ ('\"' :: (midTailRev ++ ((escChars t.«from».data).reverse
          ++ ('\"' :: (openTailRev ++ r))))))
        = ':' :: (amtRev.tail ++ ((escChars t.«to».data).reverse
          ++ ('\"' :: (midTailRev ++ ((escChars t.«from».data).reverse
          ++ ('\"' :: (openTailRev ++ r))))))) := rfl
    rw [hreshape]
    have hspan := takeWhile_digit_run ((natChars v.toNat []).reverse) hdig ':'
      (by decide) (amtRev.tail ++ ((escChars t.«to».data).reverse
          ++ ('\"' :: (midTailRev ++ ((escChars t.«from».data).reverse
          ++ ('\"' :: (openTailRev ++ r)))))))
    unfold jObjRev
    rw [show expectL ['}'] ('}' :: ((natChars v.toNat []).reverse ++ ':' :: (amtRev.tail ++ ((escChars t.«to».data).reverse
          ++ ('\"' :: (midTailRev ++ ((escChars t.«from».data).reverse
          ++ ('\"' :: (openTailRev ++ r))))))))) = some ((natChars v.toNat []).reverse ++ ':' :: (amtRev.tail ++ ((escChars t.«to».data).reverse
          ++ ('\"' :: (midTailRev ++ ((escChars t.«from».data).reverse
          ++ ('\"' :: (openTailRev ++ r)))))))) from by simp [expectL]]
    simp only [hspan.1, hspan.2]
    rw [if_neg hne]
    simp only [List.reverse_reverse, natVal_natChars]
    have hre2 : (':' :: (amtRev.tail ++ ((escChars t.«to».data).reverse
          ++ ('\"' :: (midTailRev ++ ((escChars t.«from».data).reverse
          ++ ('\"' :: (openTailRev ++ r))))))) : List Char)
        = amtRev ++ ((escChars t.«to».data).reverse
          ++ ('\"' :: (midTailRev ++ ((escChars t.«from».data).reverse
          ++ ('\"' :: (openTailRev ++ r)))))) := rfl
    rw [if_neg (by decide : ¬ (':' = '-'))]
    rw [hre2]
    rw [expectL_append]
    have hscanTo := scanRev_esc t.«to».data ':' (by decide)
      (midTailRev.tail ++ ((escChars t.«from».data).reverse ++ ('\"' :: (openTailRev ++ r))))
    have hsh1 : ((escChars t.«to».data).reverse
          ++ ('\"' :: (midTailRev ++ ((escChars t.«from».data).reverse
          ++ ('\"' :: (openTailRev ++ r))))))
        = (escChars t.«to».data).reverse ++ '\"' :: ':'
            :: (midTailRev.tail ++ ((escChars t.«from».data).reverse
              ++ ('\"' :: (openTailRev ++ r)))) := rfl
    rw [hsh1]
    dsimp only
    rw [hscanTo]
    dsimp only
    have hsh2 : (':' :: (midTailRev.tail ++ ((escChars t.«from».data).reverse
          ++ ('\"' :: (openTailRev ++ r)))) : List Char)
        = midTailRev ++ ((escChars t.«from».data).reverse
            ++ ('\"' :: (openTailRev ++ r))) := rfl
    rw [hsh2, expectL_append]
    dsimp only
    have hscanFrom := scanRev_esc t.«from».data ':' (by decide)
      (openTailRev.tail ++ r)
    have hsh3 : ((escChars t.«from».data).reverse ++ ('\"' :: (openTailRev ++ r)))
        = (escChars t.«from».data).reverse ++ '\"' :: ':' :: (openTailRev.tail ++ r) := rfl
    rw [hsh3, hscanFrom]
    dsimp only
    have hsh4 : ((':' : Char) :: (openTailRev.tail ++ r)) = openTailRev ++ r := rfl
    rw [hsh4, expectL_append]
    dsimp only
    simp only [List.reverse_reverse]
    rw [Int.toNat_of_nonneg hv0, ← hv]
  · -- negative amount: rendering is a minus sign then the digits
    have hA : jsonNumChars t.amount = '-' :: natChars v.natAbs [] := by
      rw [hv]
      show intChars v = '-' :: natChars v.natAbs []
      unfold intChars
      rw [if_pos hv0]
    rw [hA]
    have hdig := (natChars_reverse_digits v.natAbs).1
    have hne := (natChars_reverse_digits v.natAbs).2
    have hreshape : (('-' :: natChars v.natAbs []).reverse : List Char)
          ++ (amtRev ++ ((escChars t.«to».data).reverse
          ++ ('\"' :: (midTailRev ++ ((escChars t.«from».data).reverse
          ++ ('\"' :: (openTailRev ++ r)))))))
        = (natChars v.natAbs []).reverse ++ '-' :: (amtRev ++ ((escChars t.«to».data).reverse
          ++ ('\"' :: (midTailRev ++ ((escChars t.«from».data).reverse
          ++ ('\"' :: (openTailRev ++ r))))))) := by
      simp [List.reverse_cons, List.append_assoc]
    rw [hreshape]
    have hspan := takeWhile_digit_run ((natChars v.natAbs []).reverse) hdig '-'
      (by decide) (amtRev ++ ((escChars t.«to».data).reverse
          ++ ('\"' :: (midTailRev ++ ((escChars t.«from».data).reverse
          ++ ('\"' :: (openTailRev ++ r)))))))
    unfold jObjRev
    rw [show expectL ['}'] ('}' :: ((natChars v.natAbs []).reverse ++ '-' :: (amtRev ++ ((escChars t.«to».data).reverse
          ++ ('\"' :: (midTailRev ++ ((escChars t.«from».data).reverse
          ++ ('\"' :: (openTailRev ++ r))))))))) = some ((natChars v.natAbs []).reverse ++ '-' :: (amtRev ++ ((escChars t.«to».data).reverse
          ++ ('\"' :: (midTailRev ++ ((escChars t.«from».data).reverse
          ++ ('\"' :: (openTailRev ++ r)))))))) from by simp [expectL]]
    simp only [hspan.1, hspan.2]
    rw [if_neg hne]
    simp only [List.reverse_reverse, natVal_natChars]
    simp only [if_true]
    rw [expectL_append]
    have hscanTo := scanRev_esc t.«to».data ':' (by decide)
      (midTailRev.tail ++ ((escChars t.«from».data).reverse ++ ('\"' :: (openTailRev ++ r))))
    have hsh1 : ((escChars t.«to».data).reverse
          ++ ('\"' :: (midTailRev ++ ((escChars t.«from».data).reverse
          ++ ('\"' :: (openTailRev ++ r))))))
        = (escChars t.«to».data).reverse ++ '\"' :: ':'
            :: (midTailRev.tail ++ ((escChars t.«from».data).reverse
              ++ ('\"' :: (openTailRev ++ r)))) := rfl
    rw [hsh1]
    dsimp only
    rw [hscanTo]
    dsimp only
    have hsh2 : (':' :: (midTailRev.tail ++ ((escChars t.«from».data).reverse
          ++ ('\"' :: (openTailRev ++ r)))) : List Char)
        = midTailRev ++ ((escChars t.«from».data).reverse
            ++ ('\"' :: (openTailRev ++ r))) := rfl
    rw [hsh2, expectL_append]
    dsimp only
    have hscanFrom := scanRev_esc t.«from».data ':' (by decide)
      (openTailRev.tail ++ r)
    have hsh3 : ((escChars t.«from».data).reverse ++ ('\"' :: (openTailRev ++ r)))
        = (escChars t.«from».data).reverse ++ '\"' :: ':' :: (openTailRev.tail ++ r) := rfl
    rw [hsh3, hscanFrom]
    dsimp only
    have hsh4 : ((':' : Char) :: (openTailRev.tail ++ r)) = openTailRev ++ r := rfl
    rw [hsh4, expectL_append]
    dsimp only
    simp only [List.reverse_reverse]
    have hval : (-((v.natAbs : Nat) : Int)) = v := by omega
    rw [hval, ← hv]

/-- Parse the reversed object list of a JSON array body: objects arrive in
reverse order, separated by commas, terminated by the array's opening
bracket. -/
def jBodyRev (fuel : Nat) (cs : List Char) : Option (List Transaction × List Char) :=
  match cs with
  | [] => none
  | c :: r =>
    if c = '[' then some ([], r)
    else
      match fuel with
      | 0 => none
      | fuel + 1 =>
        match jObjRev (c :: r) with
        | none => none
        | some (t, r1) =>
          match r1 with
          | [] => none
          | c2 :: r2 =>
            if c2 = ',' then
              match jBodyRev fuel r2 with
              | none => none
              | some (ts, r3) => some (t :: ts, r3)
            else if c2 = '[' then some ([t], r2)
            else none

/-- The object list of a body, without the closing bracket. -/
def objsFront : List Transaction → List Char
  | [] => []
  | [t] => objChars t
  | t :: rest => objChars t ++ ',' :: objsFront rest

/-- A body is its object list followed by the closing bracket. -/
theorem bodyChars_eq_objsFront (L : List Transaction) :
    bodyChars L = objsFront L ++ [']'] := by
  induction L with
  | nil => rfl
  | cons t rest ih =>
    cases rest with
    | nil => rfl
    | cons u rest2 =>
      show objChars t ++ ',' :: bodyChars (u :: rest2)
          = (objChars t ++ ',' :: objsFront (u :: rest2)) ++ [']']
      rw [ih]
      simp [List.append_assoc]

/-- Appending one transaction to a non-empty list appends its object after
a comma. -/
theorem objsFront_append (init : List Transaction) (hne : init ≠ [])
    (u : Transaction) :
    objsFront (init ++ [u]) = objsFront init ++ ',' :: objChars u := by
  induction init with
  | nil => cases hne rfl
  | cons t rest ih =>
    cases rest with
    | nil => simp [objsFront]
    | cons w rest2 =>
      have h1 : objsFront ((t :: w :: rest2) ++ [u])
          = objChars t ++ ',' :: objsFront ((w :: rest2) ++ [u]) := by
        simp only [List.cons_append]
        rfl
      rw [h1, ih (by simp)]
      simp [objsFront, List.append_assoc]

/-- Each rendered object is non-empty, so the object list is at least as
long as the transaction list. -/
theorem objsFront_length (L : List Transaction) :
    L.length ≤ (objsFront L).length := by
  induction L with
  | nil => simp [objsFront]
  | cons t rest ih =>
    cases rest with
    | nil => simp [objsFront, objChars, objOpen]
    | cons u rest2 =>
      have h1 : objsFront (t :: u :: rest2)
          = objChars t ++ ',' :: objsFront (u :: rest2) := rfl
      rw [h1]
      simp only [List.length_append, List.length_cons] at ih ⊢
      have h2 : 1 ≤ (objChars t).length := by simp [objChars, objOpen]
      omega

/-- The reversed object chars start with the closing brace. -/
theorem objChars_reverse_head (t : Transaction) (X : List Char) :
    (objChars t).reverse ++ X
      = '}' :: ((objOpen ++ escChars t.«from».data ++ objMid
          ++ escChars t.«to».data ++ objAmt ++ jsonNumChars t.amount).reverse ++ X) := by
  have h : objChars t = (objOpen ++ escChars t.«from».data ++ objMid
      ++ escChars t.«to».data ++ objAmt ++ jsonNumChars t.amount) ++ ['}'] := by
    simp [objChars, List.append_assoc]
  rw [h]
  simp [List.reverse_append]

/-- `jBodyRev` undoes the reversed object list exactly, for any
continuation, when given at least one unit of fuel per object. -/
theorem jBodyRev_spec (L : List Transaction) :
    (∀ t ∈ L, t.amount.isFinite = true) →
    ∀ fuel, L.length ≤ fuel → ∀ r,
      jBodyRev fuel ((objsFront L).reverse ++ '[' :: r) = some (L.reverse, r) := by
  induction L using List.reverseRecOn with
  | nil =>
    intro _ fuel _ r
    show jBodyRev fuel ('[' :: r) = some ([], r)
    cases fuel <;> simp [jBodyRev]
  | append_singleton init u ih =>
    intro hfin fuel hfuel r
    have hufin : u.amount.isFinite = true := hfin u (by simp)
    obtain ⟨v, hv⟩ : ∃ v, u.amount = JSNum.num v := by
      cases h : u.amount with
      | num v => exact ⟨v, rfl⟩
      | nan => rw [h] at hufin; cases hufin
      | inf => rw [h] at hufin; cases hufin
      | neginf => rw [h] at hufin; cases hufin
    rcases fuel with _ | fuel
    · simp at hfuel
    · cases hinit : init with
      | nil =>
        subst hinit
        have hL : objsFront ([] ++ [u]) = objChars u := rfl
        rw [hL, objChars_reverse_head u ('[' :: r)]
        show jBodyRev (fuel + 1) ('}' :: _) = some ([u], r)
        rw [jBodyRev]
        rw [if_neg (by decide : ¬ (('}' : Char) = '['))]
        rw [← objChars_reverse_head u ('[' :: r)]
        rw [jObjRev_spec u v hv ('[' :: r)]
        simp
      | cons t0 rest0 =>
        rw [← hinit]
        have hne : init ≠ [] := by rw [hinit]; simp
        rw [objsFront_append init hne u]
        have hsh : (objsFront init ++ ',' :: objChars u).reverse ++ '[' :: r
            = (objChars u).reverse ++ ',' :: ((objsFront init).reverse ++ '[' :: r) := by
          simp [List.reverse_append, List.append_assoc]
        rw [hsh, objChars_reverse_head u (',' :: ((objsFront init).reverse ++ '[' :: r))]
        rw [jBodyRev]
        rw [if_neg (by decide : ¬ (('}' : Char) = '['))]
        rw [← objChars_reverse_head u (',' :: ((objsFront init).reverse ++ '[' :: r))]
        rw [jObjRev_spec u v hv (',' :: ((objsFront init).reverse ++ '[' :: r))]
        have hfuel2 : init.length ≤ fuel := by
          have := hfuel
          simp only [List.length_append, List.length_cons] at this
          omega
        have hih := ih (fun t ht => hfin t (by simp [ht])) fuel hfuel2 r
        simp only [if_pos rfl]
        rw [hih]
        simp

/-- Decode a reversed fingerprint: nonce digits, the JSON array reversed,
timestamp digits, and whatever remains is the reversed previousHash. -/
def decodeFingerRev (cs : List Char) : Option (Nat × List Transaction × Nat × List Char) :=
  let ds1 := cs.takeWhile Char.isDigit
  let r1 := cs.dropWhile Char.isDigit
  if ds1 = [] then none
  else
    match r1 with
    | [] => none
    | c1 :: r2 =>
      if c1 = '|' then
        match r2 with
        | [] => none
        | c2 :: r3 =>
          if c2 = ']' then
            match jBodyRev r3.length r3 with
            | none => none
            | some (tsR, r4) =>
              match r4 with
              | [] => none
              | c3 :: r5 =>
                if c3 = '|' then
                  let ds2 := r5.takeWhile Char.isDigit
                  let r6 := r5.dropWhile Char.isDigit
                  if ds2 = [] then none
                  else
                    match r6 with
                    | [] => none
                    | c4 :: r7 =>
                      if c4 = '|' then
                        some (natVal ds1.reverse, tsR.reverse, natVal ds2.reverse, r7)
                      else none
                else none
          else none
      else none

/-- The fingerprint's character list, segment by segment. -/
theorem toHashString_data (b : Block) :
    (toHashString b).data
      = b.previousHash.data ++ '|' :: (natChars b.timestamp []
          ++ '|' :: ('[' :: bodyChars b.transactions ++ '|' :: natChars b.nonce [])) := by
  simp [toHashString, natStr, jsonStringify, String.data_append, List.append_assoc]

/-- The reversed fingerprint, segment by segment. -/
theorem toHashString_data_reverse (b : Block) :
    (toHashString b).data.reverse
      = (natChars b.nonce []).reverse ++ '|' :: ']'
          :: ((objsFront b.transactions).reverse
            ++ '[' :: '|' :: ((natChars b.timestamp []).reverse
              ++ '|' :: b.previousHash.data.reverse)) := by
  rw [toHashString_data, bodyChars_eq_objsFront]
  simp [List.reverse_append, List.append_assoc]

/-- The decoder recovers every hashed field from the fingerprint of any
block whose amounts are finite. -/
theorem decode_toHashString (b : Block)
    (hfin : ∀ t ∈ b.transactions, t.amount.isFinite = true) :
    decodeFingerRev (toHashString b).data.reverse
      = some (b.nonce, b.transactions, b.timestamp, b.previousHash.data.reverse) := by
  rw [toHashString_data_reverse]
  have hd1 := (natChars_reverse_digits b.nonce).1
  have hn1 := (natChars_reverse_digits b.nonce).2
  have hd2 := (natChars_reverse_digits b.timestamp).1
  have hn2 := (natChars_reverse_digits b.timestamp).2
  have hspan1 := takeWhile_digit_run ((natChars b.nonce []).reverse) hd1 '|'
    (by decide) (']' :: ((objsFront b.transactions).reverse
      ++ '[' :: '|' :: ((natChars b.timestamp []).reverse
        ++ '|' :: b.previousHash.data.reverse)))
  have hspan2 := takeWhile_digit_run ((natChars b.timestamp []).reverse) hd2 '|'
    (by decide) b.previousHash.data.reverse
  unfold decodeFingerRev
  simp only [hspan1.1, hspan1.2]
  rw [if_neg hn1]
  rw [if_pos trivial, if_pos trivial]
  have hlen : b.transactions.length
      ≤ ((objsFront b.transactions).reverse
          ++ '[' :: '|' :: ((natChars b.timestamp []).reverse
            ++ '|' :: b.previousHash.data.reverse)).length := by
    have h1 := objsFront_length b.transactions
    simp only [List.length_append, List.length_reverse, List.length_cons]
    omega
  rw [jBodyRev_spec b.transactions hfin _ hlen
    ('|' :: ((natChars b.timestamp []).reverse ++ '|' :: b.previousHash.data.reverse))]
  dsimp only
  rw [if_pos (show ('|' : Char) = '|' from rfl)]
  simp only [hspan2.1, hspan2.2]
  rw [if_neg hn2]
  rw [if_pos trivial]
  simp only [List.reverse_reverse, natVal_natChars]

/-- A block holding one transaction of amount `Infinity`. -/
def blockInfFix : Block :=
  { timestamp := 0, transactions := [⟨"a", "b", JSNum.inf⟩],
    previousHash := "p", nonce := 0, hash := "" }

/-- The same block with the amount replaced by `NaN`: a different
transaction list. -/
def blockNanFix : Block :=
  { timestamp := 0, transactions := [⟨"a", "b", JSNum.nan⟩],
    previousHash := "p", nonce := 0, hash := "" }

/-- C8 (counterexample): two blocks that differ in their transaction list —
one amount is `Infinity`, the other `NaN`, both rendered `null` by
JSON.stringify — share the same fingerprint, so the fingerprint is not
injective in the transaction-list field over all blocks. -/
theorem toHashString_collision :
    toHashString blockInfFix = toHashString blockNanFix
      ∧ blockInfFix.transactions ≠ blockNanFix.transactions
      ∧ blockInfFix.timestamp = blockNanFix.timestamp
      ∧ blockInfFix.previousHash = blockNanFix.previousHash
      ∧ blockInfFix.nonce = blockNanFix.nonce := by
  refine ⟨?_, by decide, rfl, rfl, rfl⟩
  rfl

/-- C8 (amended): the fingerprint is stable — blocks agreeing on timestamp,
previousHash, transactions and nonce have equal fingerprints — and, over
blocks whose transaction amounts are all finite, injective in those four
fields jointly: equal fingerprints force all four fields to agree. -/
theorem toHashString_stable_injective (b1 b2 : Block)
    (h1 : ∀ t ∈ b1.transactions, t.amount.isFinite = true)
    (h2 : ∀ t ∈ b2.transactions, t.amount.isFinite = true) :
    toHashString b1 = toHashString b2 ↔
      (b1.timestamp = b2.timestamp ∧ b1.previousHash = b2.previousHash
        ∧ b1.transactions = b2.transactions ∧ b1.nonce = b2.nonce) := by
  constructor
  · intro heq
    have hdec := decode_toHashString b1 h1
    rw [heq, decode_toHashString b2 h2] at hdec
    simp only [Option.some.injEq, Prod.mk.injEq] at hdec
    obtain ⟨hn, htx, ht, hp⟩ := hdec
    refine ⟨ht.symm, ?_, htx.symm, hn.symm⟩
    have hp2 : b1.previousHash.data = b2.previousHash.data :=
      List.reverse_injective hp.symm
    cases hb1 : b1.previousHash with
    | mk d1 =>
      cases hb2 : b2.previousHash with
      | mk d2 =>
        rw [hb1, hb2] at hp2
        simp at hp2
        rw [hp2]
  · rintro ⟨ht, hp, htx, hn⟩
    unfold toHashString natStr jsonStringify
    rw [ht, hp, htx, hn]

/-- C8 (witness): the injectivity theorem applied at the concrete mined
block. -/
theorem toHashString_stable_injective_witness :
    toHashString minedBlockFix = toHashString minedBlockFix ↔
      (minedBlockFix.timestamp = minedBlockFix.timestamp
        ∧ minedBlockFix.previousHash = minedBlockFix.previousHash
        ∧ minedBlockFix.transactions = minedBlockFix.transactions
        ∧ minedBlockFix.nonce = minedBlockFix.nonce) :=
  toHashString_stable_injective minedBlockFix minedBlockFix (by decide) (by decide)
